import Mathlib

/-!
Shallow embedding of the inverted-index search engine
(`InvertedIndex.py`, `RankingModels.py`) and proofs about it.

Python dictionaries are insertion-ordered, so both levels of the
inverted index (`term -> doc_id -> positions`) and the score
accumulators (`defaultdict(float)`) are modelled as association lists
that keep insertion order: assignment to a key that is present updates
the value in place, assignment to an absent key appends the binding at
the end, exactly as CPython dicts behave.
-/

namespace IRSpec

/-- Lookup in an insertion-ordered association list (Python `d[k]` /
`k in d`): the first binding with the given key wins. -/
def lookupA {α : Type} (k : String) : List (String × α) → Option α
  | [] => none
  | p :: l => if p.1 = k then some p.2 else lookupA k l

/-- The key sequence of an association list (Python `d.keys()`). -/
def keysA {α : Type} (l : List (String × α)) : List String :=
  l.map Prod.fst

/-- Python `d[k] = v`: overwrite in place when the key is present,
append the new binding otherwise. -/
def setA {α : Type} (k : String) (v : α) : List (String × α) → List (String × α)
  | [] => [(k, v)]
  | p :: l => if p.1 = k then (k, v) :: l else p :: setA k v l

/-- Python `defaultdict` read-modify-write `d[k] = f(d[k])` (also
`d[k] += x`, `d[k].append x`): when the key is absent the default is
materialised first, so the binding is appended at the end. -/
def modifyA {α : Type} (k : String) (dflt : α) (f : α → α) :
    List (String × α) → List (String × α)
  | [] => [(k, f dflt)]
  | p :: l => if p.1 = k then (p.1, f p.2) :: l else p :: modifyA k dflt f l

@[simp]
theorem lookupA_nil {α : Type} (k : String) : lookupA (α := α) k [] = none := rfl

theorem lookupA_cons {α : Type} (k : String) (p : String × α) (l : List (String × α)) :
    lookupA k (p :: l) = if p.1 = k then some p.2 else lookupA k l := rfl

theorem lookupA_modifyA {α : Type} (k k' : String) (dflt : α) (f : α → α)
    (l : List (String × α)) :
    lookupA k (modifyA k' dflt f l) =
      if k' = k then some (f ((lookupA k l).getD dflt)) else lookupA k l := by
  induction l with
  | nil =>
      by_cases h : k' = k <;> simp [modifyA, lookupA, h]
  | cons p l ih =>
      by_cases hp : p.1 = k'
      · by_cases hk : k' = k
        · subst hk
          simp [modifyA, lookupA, hp]
        · simp only [modifyA, hp, if_pos]
          rw [lookupA_cons, lookupA_cons]
          have hpk : ¬ p.1 = k := by rw [hp]; exact hk
          simp [hpk, hk]
      · simp only [modifyA, hp, if_neg, if_false]
        rw [lookupA_cons, lookupA_cons]
        by_cases hpk : p.1 = k
        · have hk : ¬ k' = k := by
            intro h; exact hp (by rw [hpk, h])
          simp [hpk, hk]
        · simp [hpk, ih]

@[simp]
theorem keysA_nil {α : Type} : keysA (α := α) [] = [] := rfl

@[simp]
theorem keysA_cons {α : Type} (p : String × α) (l : List (String × α)) :
    keysA (p :: l) = p.1 :: keysA l := rfl

theorem keysA_modifyA {α : Type} (k : String) (dflt : α) (f : α → α)
    (l : List (String × α)) :
    keysA (modifyA k dflt f l) = if k ∈ keysA l then keysA l else keysA l ++ [k] := by
  induction l with
  | nil => simp [modifyA]
  | cons p l ih =>
      by_cases hp : p.1 = k
      · have hk : k ∈ keysA (p :: l) := by rw [keysA_cons, ← hp]; exact List.mem_cons_self _ _
        rw [if_pos hk]
        simp [modifyA, hp]
      · have hstep : modifyA k dflt f (p :: l) = p :: modifyA k dflt f l := by
          simp [modifyA, hp]
        have hne : k ≠ p.1 := fun h => hp h.symm
        rw [hstep, keysA_cons, ih, keysA_cons]
        by_cases hm : k ∈ keysA l
        · rw [if_pos hm, if_pos (List.mem_cons_of_mem _ hm)]
        · rw [if_neg hm, if_neg (by rw [List.mem_cons]; rintro (h | h) <;> [exact hne h; exact hm h])]
          rw [List.cons_append]

theorem mem_keysA_iff_lookupA {α : Type} (k : String) (l : List (String × α)) :
    k ∈ keysA l ↔ (lookupA k l).isSome := by
  induction l with
  | nil => simp
  | cons p l ih =>
      rw [keysA_cons, List.mem_cons, lookupA_cons]
      by_cases hp : p.1 = k
      · simp [hp]
      · have hne : ¬ k = p.1 := fun h => hp h.symm
        simp [hp, hne, ih]

theorem lookupA_mem {α : Type} {k : String} {v : α} {l : List (String × α)}
    (h : lookupA k l = some v) : (k, v) ∈ l := by
  induction l with
  | nil => simp [lookupA] at h
  | cons p l ih =>
      rw [lookupA_cons] at h
      by_cases hp : p.1 = k
      · rw [if_pos hp] at h
        obtain ⟨a, b⟩ := p
        simp only at hp
        subst hp
        have hv : b = v := Option.some.inj h
        subst hv
        exact List.mem_cons_self _ _
      · rw [if_neg hp] at h
        exact List.mem_cons_of_mem _ (ih h)

theorem nodup_keysA_modifyA {α : Type} (k : String) (dflt : α) (f : α → α)
    {l : List (String × α)} (h : (keysA l).Nodup) :
    (keysA (modifyA k dflt f l)).Nodup := by
  rw [keysA_modifyA]
  by_cases hm : k ∈ keysA l
  · simp [hm, h]
  · simp only [hm, if_false]
    exact List.Nodup.append h (List.nodup_singleton k) (by simpa using hm)

/-!
## InvertedIndex (src/Lab/src/InvertedIndex.py)

State of an `InvertedIndex` object.  Document metadata is an opaque
pass-through value; we model it as a `String`.
-/

/-- Fields of `InvertedIndex.__init__`: the nested
`term -> doc_id -> positions` map, document metadata, document
lengths, and the two collection-level counters. -/
structure InvertedIndex where
  index : List (String × List (String × List Nat))
  documents : List (String × String)
  doc_lengths : List (String × Nat)
  total_docs : Nat
  vocabulary_size : Nat
  deriving DecidableEq, Repr

/-- A freshly constructed `InvertedIndex()`. -/
def emptyIndex : InvertedIndex :=
  { index := [], documents := [], doc_lengths := [], total_docs := 0, vocabulary_size := 0 }

/-- The loop `for position, term in enumerate(processed_tokens):
self.index[term][doc_id].append(position)` of `add_document`, with the
running position counter made explicit.  The double `defaultdict`
access materialises empty entries before appending. -/
def indexTokens (doc_id : String) : Nat → List String →
    List (String × List (String × List Nat)) → List (String × List (String × List Nat))
  | _, [], ix => ix
  | pos, t :: ts, ix =>
      indexTokens doc_id (pos + 1) ts
        (modifyA t [] (modifyA doc_id [] (fun ps => ps ++ [pos])) ix)

/-- Model of `InvertedIndex.add_document(doc_id, processed_tokens, document_metadata)`:
stores metadata, records the token count as the document length,
appends each token position into the nested index, and increments
`total_docs`.  `vocabulary_size` is not touched. -/
def add_document (ix : InvertedIndex) (doc_id : String) (tokens : List String)
    (meta : String) : InvertedIndex :=
  { index := indexTokens doc_id 0 tokens ix.index
    documents := setA doc_id meta ix.documents
    doc_lengths := setA doc_id tokens.length ix.doc_lengths
    total_docs := ix.total_docs + 1
    vocabulary_size := ix.vocabulary_size }

/-- One ingestion triple: (doc_id, processed_tokens, metadata). -/
abbrev DocOp := String × List String × String

/-- A build phase: a sequence of `add_document` calls applied to a
freshly constructed `InvertedIndex()`. -/
def buildIndex (ops : List DocOp) : InvertedIndex :=
  ops.foldl (fun ix op => add_document ix op.1 op.2.1 op.2.2) emptyIndex

/-- Model of `InvertedIndex.get_document_frequency(term)`:
`return len(self.index[term])`.  Because `self.index` is a
`defaultdict`, the subscript inserts an empty entry when `term` is
absent, so the call returns the frequency together with the
(possibly mutated) state. -/
def get_document_frequency (ix : InvertedIndex) (term : String) : Nat × InvertedIndex :=
  match lookupA term ix.index with
  | some docs => (docs.length, ix)
  | none => (0, { ix with index := ix.index ++ [(term, [])] })

/-- The dictionary pickled by `InvertedIndex.save_index`: the five
fields, with `vocabulary_size` recomputed as `len(self.index)`. -/
structure IndexData where
  index : List (String × List (String × List Nat))
  documents : List (String × String)
  doc_lengths : List (String × Nat)
  total_docs : Nat
  vocabulary_size : Nat
  deriving DecidableEq, Repr

/-- Model of `InvertedIndex.save_index(file_path)`, as producing the
pickled record (the pickle round-trip through the file is lossless). -/
def save_index (ix : InvertedIndex) : IndexData :=
  { index := ix.index
    documents := ix.documents
    doc_lengths := ix.doc_lengths
    total_docs := ix.total_docs
    vocabulary_size := ix.index.length }

/-- Model of `InvertedIndex.load_index(file_path)`, as consuming the
pickled record: every in-memory field is replaced. -/
def load_index (d : IndexData) : InvertedIndex :=
  { index := d.index
    documents := d.documents
    doc_lengths := d.doc_lengths
    total_docs := d.total_docs
    vocabulary_size := d.vocabulary_size }

/-- The dictionary returned by `InvertedIndex.get_statistics`. -/
structure Stats where
  total_documents : Nat
  vocabulary_size : Nat
  average_document_length : ℝ
  total_terms : Nat

/-- Model of `InvertedIndex.get_statistics()`: note that `vocabulary_size` is
recomputed as `len(self.index)`, not read from the scalar field. -/
noncomputable def get_statistics (ix : InvertedIndex) : Stats :=
  { total_documents := ix.total_docs
    vocabulary_size := ix.index.length
    average_document_length :=
      ((ix.doc_lengths.map (fun p => p.2)).sum : ℝ) / ((max 1 ix.total_docs : ℕ) : ℝ)
    total_terms := (ix.index.map (fun tp => (tp.2.map (fun dp => dp.2.length)).sum)).sum }

/-- Positions stored for a (term, document) pair: the nested lookup
`index[term][doc_id]`, `none` when either level is absent. -/
def posIn (idx : List (String × List (String × List Nat))) (t d : String) :
    Option (List Nat) :=
  (lookupA t idx).bind (fun docs => lookupA d docs)

/-- Positions (starting the count at `p`) at which a term occurs in a
token list; mirrors the recursion of `indexTokens`. -/
def occFrom (t : String) : Nat → List String → List Nat
  | _, [] => []
  | p, x :: xs => if x = t then p :: occFrom t (p + 1) xs else occFrom t (p + 1) xs

theorem posIn_eq_lookup_getD (idx : List (String × List (String × List Nat)))
    (t d : String) :
    posIn idx t d = lookupA d ((lookupA t idx).getD []) := by
  cases h : lookupA t idx <;> simp [posIn, h]

theorem posIn_indexTokens_of_ne (dID : String) (toks : List String) (p : Nat)
    (idx : List (String × List (String × List Nat))) (t d : String) (hd : d ≠ dID) :
    posIn (indexTokens dID p toks idx) t d = posIn idx t d := by
  induction toks generalizing p idx with
  | nil => rfl
  | cons x xs ih =>
      rw [indexTokens, ih]
      rw [posIn_eq_lookup_getD, posIn_eq_lookup_getD]
      by_cases hx : x = t
      · subst hx
        rw [lookupA_modifyA, if_pos rfl]
        simp only [Option.getD_some]
        rw [lookupA_modifyA, if_neg (fun h => hd h.symm)]
      · rw [lookupA_modifyA, if_neg hx]

theorem posIn_indexTokens_self (dID : String) (toks : List String) (p : Nat)
    (idx : List (String × List (String × List Nat))) (t : String) :
    posIn (indexTokens dID p toks idx) t dID =
      if occFrom t p toks = [] then posIn idx t dID
      else some ((posIn idx t dID).getD [] ++ occFrom t p toks) := by
  induction toks generalizing p idx with
  | nil => simp [indexTokens, occFrom]
  | cons x xs ih =>
      rw [indexTokens, ih]
      by_cases hx : x = t
      · subst hx
        have hstep : posIn (modifyA x [] (modifyA dID [] (fun ps => ps ++ [p])) idx) x dID =
            some ((posIn idx x dID).getD [] ++ [p]) := by
          rw [posIn_eq_lookup_getD, lookupA_modifyA, if_pos rfl]
          simp only [Option.getD_some]
          rw [lookupA_modifyA, if_pos rfl, ← posIn_eq_lookup_getD]
        rw [occFrom, if_pos rfl]
        by_cases hocc : occFrom x (p + 1) xs = []
        · rw [if_pos hocc, hstep, if_neg (by simp), hocc]
        · rw [if_neg hocc, hstep, if_neg (by simp)]
          simp only [Option.getD_some, List.append_assoc, List.singleton_append]
      · have hstep : posIn (modifyA x [] (modifyA dID [] (fun ps => ps ++ [p])) idx) t dID =
            posIn idx t dID := by
          rw [posIn_eq_lookup_getD, lookupA_modifyA, if_neg hx, ← posIn_eq_lookup_getD]
        rw [occFrom, if_neg hx, hstep]

theorem occFrom_le (t : String) (toks : List String) (p : Nat) :
    ∀ i ∈ occFrom t p toks, p ≤ i := by
  induction toks generalizing p with
  | nil => simp [occFrom]
  | cons x xs ih =>
      intro i hi
      rw [occFrom] at hi
      by_cases hx : x = t
      · rw [if_pos hx, List.mem_cons] at hi
        rcases hi with rfl | hi
        · exact le_refl i
        · exact le_trans (Nat.le_succ p) (ih (p + 1) i hi)
      · rw [if_neg hx] at hi
        exact le_trans (Nat.le_succ p) (ih (p + 1) i hi)

theorem occFrom_sorted (t : String) (toks : List String) (p : Nat) :
    (occFrom t p toks).Sorted (· < ·) := by
  induction toks generalizing p with
  | nil => simp [occFrom]
  | cons x xs ih =>
      rw [occFrom]
      by_cases hx : x = t
      · rw [if_pos hx]
        rw [List.sorted_cons]
        exact ⟨fun b hb => lt_of_lt_of_le (Nat.lt_succ_self p) (occFrom_le t xs (p + 1) b hb),
               ih (p + 1)⟩
      · rw [if_neg hx]
        exact ih (p + 1)

theorem occFrom_mem (t : String) (toks : List String) (p i : Nat) :
    i ∈ occFrom t p toks ↔ ∃ j, toks[j]? = some t ∧ i = p + j := by
  induction toks generalizing p with
  | nil => simp [occFrom]
  | cons x xs ih =>
      rw [occFrom]
      by_cases hx : x = t
      · subst hx
        rw [if_pos rfl, List.mem_cons, ih]
        constructor
        · rintro (rfl | ⟨j, hj, rfl⟩)
          · exact ⟨0, by simp⟩
          · exact ⟨j + 1, by simpa using hj, by omega⟩
        · rintro ⟨j, hj, rfl⟩
          cases j with
          | zero => left; omega
          | succ j => right; exact ⟨j, by simpa using hj, by omega⟩
      · rw [if_neg hx, ih]
        constructor
        · rintro ⟨j, hj, rfl⟩
          exact ⟨j + 1, by simpa using hj, by omega⟩
        · rintro ⟨j, hj, rfl⟩
          cases j with
          | zero => simp at hj; exact absurd hj hx
          | succ j => exact ⟨j, by simpa using hj, by omega⟩

/-- Step function of the build phase, as folded by `buildIndex`. -/
theorem buildIndex_eq_foldl (ops : List DocOp) :
    buildIndex ops = ops.foldl (fun ix op => add_document ix op.1 op.2.1 op.2.2) emptyIndex :=
  rfl

theorem posIn_foldl_of_not_mem (ops : List DocOp) (ix : InvertedIndex) (t d : String)
    (hd : d ∉ ops.map (fun op => op.1)) :
    posIn ((ops.foldl (fun a op => add_document a op.1 op.2.1 op.2.2) ix).index) t d =
      posIn ix.index t d := by
  induction ops generalizing ix with
  | nil => rfl
  | cons a ops ih =>
      simp only [List.map_cons, List.mem_cons] at hd
      push_neg at hd
      rw [List.foldl_cons, ih _ hd.2]
      exact posIn_indexTokens_of_ne a.1 a.2.1 0 ix.index t d hd.1

theorem posIn_foldl_characterization (ops : List DocOp) (ix : InvertedIndex)
    (hnd : (ops.map (fun op => op.1)).Nodup)
    (hfresh : ∀ op ∈ ops, ∀ t, posIn ix.index t op.1 = none)
    (t d : String) (ps : List Nat)
    (h : posIn ((ops.foldl (fun a op => add_document a op.1 op.2.1 op.2.2) ix).index) t d
          = some ps) :
    posIn ix.index t d = some ps ∨
      ∃ op ∈ ops, op.1 = d ∧ ps = occFrom t 0 op.2.1 ∧ ps ≠ [] := by
  induction ops generalizing ix with
  | nil => exact Or.inl h
  | cons a ops ih =>
      rw [List.foldl_cons] at h
      simp only [List.map_cons, List.nodup_cons] at hnd
      have hfresh' : ∀ op ∈ ops, ∀ t,
          posIn (add_document ix a.1 a.2.1 a.2.2).index t op.1 = none := by
        intro op hop t'
        have hne : op.1 ≠ a.1 := by
          intro hcontra
          exact hnd.1 (hcontra ▸ List.mem_map_of_mem (fun o => o.1) hop)
        rw [add_document]
        rw [posIn_indexTokens_of_ne a.1 a.2.1 0 ix.index t' op.1 hne]
        exact hfresh op (List.mem_cons_of_mem _ hop) t'
      rcases ih (add_document ix a.1 a.2.1 a.2.2) hnd.2 hfresh' h with h1 | ⟨op, hop, h2⟩
      · by_cases hd : d = a.1
        · rw [add_document] at h1
          rw [hd, posIn_indexTokens_self a.1 a.2.1 0 ix.index t] at h1
          have hnone : posIn ix.index t a.1 = none := hfresh a (List.mem_cons_self _ _) t
          by_cases hocc : occFrom t 0 a.2.1 = []
          · rw [if_pos hocc, hnone] at h1
            exact absurd h1 (by simp)
          · rw [if_neg hocc, hnone] at h1
            have hps : ps = occFrom t 0 a.2.1 := by simpa using h1.symm
            exact Or.inr ⟨a, List.mem_cons_self _ _, hd.symm, hps, by rw [hps]; exact hocc⟩
        · rw [add_document] at h1
          rw [posIn_indexTokens_of_ne a.1 a.2.1 0 ix.index t d hd] at h1
          exact Or.inl h1
      · exact Or.inr ⟨op, List.mem_cons_of_mem _ hop, h2⟩

theorem nodup_keysA_indexTokens (dID : String) (toks : List String) (p : Nat)
    (idx : List (String × List (String × List Nat))) (h : (keysA idx).Nodup) :
    (keysA (indexTokens dID p toks idx)).Nodup := by
  induction toks generalizing p idx with
  | nil => exact h
  | cons x xs ih => exact ih _ _ (nodup_keysA_modifyA _ _ _ h)

theorem vocabulary_size_foldl (ops : List DocOp) (ix : InvertedIndex) :
    (ops.foldl (fun a op => add_document a op.1 op.2.1 op.2.2) ix).vocabulary_size
      = ix.vocabulary_size := by
  induction ops generalizing ix with
  | nil => rfl
  | cons a ops ih => rw [List.foldl_cons, ih]; rfl

theorem nodup_keysA_foldl_build (ops : List DocOp) (ix : InvertedIndex)
    (h : (keysA ix.index).Nodup) :
    (keysA ((ops.foldl (fun a op => add_document a op.1 op.2.1 op.2.2) ix).index)).Nodup := by
  induction ops generalizing ix with
  | nil => exact h
  | cons a ops ih => exact ih _ (nodup_keysA_indexTokens _ _ _ _ h)

theorem nodup_keysA_buildIndex (ops : List DocOp) :
    (keysA (buildIndex ops).index).Nodup :=
  nodup_keysA_foldl_build ops emptyIndex List.nodup_nil

/-- C2: for every index built by a sequence of add_document calls,
loading the saved record yields an index whose statistics() output
equals the original's and whose position list for every
(term, document) pair matches the original exactly. -/
theorem saveLoad_roundtrip (ops : List DocOp) :
    get_statistics (load_index (save_index (buildIndex ops))) = get_statistics (buildIndex ops)
    ∧ ∀ t d : String,
        posIn (load_index (save_index (buildIndex ops))).index t d
          = posIn (buildIndex ops).index t d :=
  ⟨rfl, fun _ _ => rfl⟩

/-- C4: evaluating the code at the failing input: on a fresh index,
`get_document_frequency("zzz")` returns 0 as the claim demands, but it
is not read-only: an empty entry for "zzz" is inserted into the
postings structure, and the vocabulary_size reported by statistics()
changes from 0 to 1. -/
theorem get_document_frequency_mutates :
    (get_document_frequency emptyIndex "zzz").1 = 0 ∧
    (get_document_frequency emptyIndex "zzz").2.index = [("zzz", [])] ∧
    (get_statistics emptyIndex).vocabulary_size = 0 ∧
    (get_statistics (get_document_frequency emptyIndex "zzz").2).vocabulary_size = 1 ∧
    (get_document_frequency emptyIndex "zzz").2 ≠ emptyIndex := by
  refine ⟨rfl, rfl, rfl, rfl, ?_⟩
  decide

/-- C5 counterexample: re-inserting an already-present doc_id appends
the position sequence again, so the stored posting for ("cat", "A")
becomes [0, 2, 0, 2], which is not ascending. -/
theorem reinsertion_breaks_ascending :
    posIn (buildIndex [("A", ["cat", "dog", "cat"], "m"),
                       ("A", ["cat", "dog", "cat"], "m")]).index "cat" "A"
      = some [0, 2, 0, 2] ∧
    ¬ List.Sorted (· < ·) [0, 2, 0, 2] := by
  constructor
  · decide
  · decide

/-- C5 (amended): after any sequence of add_document calls whose
doc_ids are pairwise distinct, every stored posting is a strictly
ascending sequence of exactly the zero-based token positions where the
term occurs in that document. -/
theorem posting_ascending_of_distinct (ops : List DocOp)
    (hnd : (ops.map (fun op => op.1)).Nodup) (t d : String) (ps : List Nat)
    (h : posIn (buildIndex ops).index t d = some ps) :
    List.Sorted (· < ·) ps ∧ ps ≠ [] ∧
      ∃ op ∈ ops, op.1 = d ∧ ∀ i : Nat, i ∈ ps ↔ op.2.1[i]? = some t := by
  have hchar := posIn_foldl_characterization ops emptyIndex hnd
    (by intro op _ t'; rfl) t d ps h
  rcases hchar with h1 | ⟨op, hop, hopd, hps, hne⟩
  · exact Option.noConfusion h1
  · subst hps
    refine ⟨occFrom_sorted t op.2.1 0, hne, op, hop, hopd, fun i => ?_⟩
    rw [occFrom_mem]
    constructor
    · rintro ⟨j, hj, rfl⟩
      simpa using hj
    · intro hi
      exact ⟨i, hi, by omega⟩

/-- Witness for the amended C5 theorem at a concrete build. -/
theorem posting_ascending_of_distinct_witness :
    List.Sorted (· < ·) [0, 2] ∧ ([0, 2] : List Nat) ≠ [] ∧
      ∃ op ∈ [(("A" : String), (["cat", "dog", "cat"] : List String), ("m" : String))],
        op.1 = "A" ∧ ∀ i : Nat, i ∈ ([0, 2] : List Nat) ↔ op.2.1[i]? = some "cat" :=
  posting_ascending_of_distinct [("A", ["cat", "dog", "cat"], "m")]
    (by decide) "cat" "A" [0, 2] (by decide)

/-- C6 counterexample: after adding one document with one term, the
scalar vocabulary_size field is still 0 while the postings structure
holds 1 distinct term. -/
theorem vocabulary_size_stale :
    (buildIndex [("A", ["cat"], "m")]).vocabulary_size
      ≠ ((keysA (buildIndex [("A", ["cat"], "m")]).index).dedup).length := by
  decide

/-- C6 (amended): after every build-phase sequence of add_document
calls, the scalar vocabulary_size field still holds its initial value
0 (add_document never updates it); the distinct-term count is instead
reported by statistics(), whose vocabulary_size entry equals the
number of distinct terms in the postings structure. -/
theorem vocabulary_size_after_build (ops : List DocOp) :
    (buildIndex ops).vocabulary_size = 0 ∧
    (get_statistics (buildIndex ops)).vocabulary_size
      = ((keysA (buildIndex ops).index).dedup).length := by
  constructor
  · exact vocabulary_size_foldl ops emptyIndex
  · rw [List.Nodup.dedup (nodup_keysA_buildIndex ops)]
    show (buildIndex ops).index.length = (keysA (buildIndex ops).index).length
    rw [keysA, List.length_map]

/-!
## RankingModels (src/Lab/src/RankingModels.py)

`RankingModels.__init__` keeps the loaded index's postings,
`doc_lengths` and `total_docs`, and derives the average document
length once.  Scores are Python floats; we model them as real numbers,
and `math.log` as `Real.log`.
-/

/-- Fields of `RankingModels.__init__` taken from `index_data`. -/
structure RankingModels where
  index : List (String × List (String × List Nat))
  doc_lengths : List (String × Nat)
  total_docs : Nat
  deriving DecidableEq, Repr

/-- The `RankingModels(index_data)` constructor applied to the record
saved/loaded for an `InvertedIndex`. -/
def rmOf (ix : InvertedIndex) : RankingModels :=
  { index := ix.index, doc_lengths := ix.doc_lengths, total_docs := ix.total_docs }

/-- Model of `self.avg_doc_length = sum(self.doc_lengths.values()) / max(1, self.total_docs)`. -/
noncomputable def RankingModels.avg_doc_length (rm : RankingModels) : ℝ :=
  ((rm.doc_lengths.map (fun p => p.2)).sum : ℝ) / ((max 1 rm.total_docs : ℕ) : ℝ)

/-- Inner accumulation loop shared by the three scoring methods:
`for doc_id, positions in self.index[term].items(): scores[doc_id] += f(doc_id, positions)`
over a `defaultdict(float)`. -/
noncomputable def accumDocs (f : String × List Nat → ℝ)
    (docs : List (String × List Nat)) (sc : List (String × ℝ)) : List (String × ℝ) :=
  docs.foldl (fun s p => modifyA p.1 0 (fun v => v + f p) s) sc

/-- Stable insert for descending-by-score order: the new element goes
before the first element whose score is not larger.  Python `sorted`
is stable, so `sorted(items, key=lambda x: x[1], reverse=True)` is
exactly the stable descending sort this insertion sort computes. -/
noncomputable def insertDesc (x : String × ℝ) : List (String × ℝ) → List (String × ℝ)
  | [] => [x]
  | y :: ys => if y.2 ≤ x.2 then x :: y :: ys else y :: insertDesc x ys

/-- Model of `dict(sorted(scores.items(), key=lambda x: x[1], reverse=True))`:
a stable sort by descending score (ties keep insertion order). -/
noncomputable def sortByScoreDesc (l : List (String × ℝ)) : List (String × ℝ) :=
  l.foldr insertDesc []

/-- Loop body of `calculate_tf_idf` for one query token. -/
noncomputable def tfidfStep (rm : RankingModels) (sc : List (String × ℝ)) (term : String) :
    List (String × ℝ) :=
  match lookupA term rm.index with
  | none => sc
  | some docs =>
      let idf := Real.log ((rm.total_docs : ℝ) / (docs.length : ℝ))
      accumDocs (fun dp => (dp.2.length : ℝ) * idf) docs sc

/-- The `scores` dict built by `RankingModels.calculate_tf_idf` before
sorting (iterates the raw query token list, duplicates included). -/
noncomputable def tfidfScores (rm : RankingModels) (q : List String) : List (String × ℝ) :=
  q.foldl (tfidfStep rm) []

/-- Model of `RankingModels.calculate_tf_idf(query_tokens)`. -/
noncomputable def calculate_tf_idf (rm : RankingModels) (q : List String) :
    List (String × ℝ) :=
  sortByScoreDesc (tfidfScores rm q)

/-- Model of `collections.Counter(query_tokens)`: term -> multiplicity, keyed in
first-occurrence order. -/
def counter (q : List String) : List (String × Nat) :=
  q.foldl (fun c t => modifyA t 0 (fun n => n + 1) c) []

/-- The full-vocabulary document magnitude computed inside the
normalization loop of `vector_space_model`. -/
noncomputable def docMagnitude (rm : RankingModels) (d : String) : ℝ :=
  Real.sqrt ((rm.index.map (fun tp =>
    ((tp.2.filter (fun dp => dp.1 = d)).map (fun dp =>
      ((dp.2.length : ℝ) * Real.log ((rm.total_docs : ℝ) / (tp.2.length : ℝ))) ^ 2)).sum)).sum)

/-- The `scores` dict built by the accumulation loop of
`vector_space_model` (iterates the query Counter). -/
noncomputable def vsmScores (rm : RankingModels) (q : List String) : List (String × ℝ) :=
  (counter q).foldl (fun sc p =>
    match lookupA p.1 rm.index with
    | none => sc
    | some docs =>
        let idf := Real.log ((rm.total_docs : ℝ) / (docs.length : ℝ))
        let query_weight := (p.2 : ℝ) * idf
        accumDocs (fun dp => query_weight * ((dp.2.length : ℝ) * idf)) docs sc) []

/-- Model of `RankingModels.vector_space_model(query_tokens)`: accumulate the
dot product, then divide each document's score by
`query_magnitude * doc_magnitude` when the document magnitude is
positive, then sort by descending score. -/
noncomputable def vector_space_model (rm : RankingModels) (q : List String) :
    List (String × ℝ) :=
  let query_magnitude := Real.sqrt (((counter q).map (fun p => ((p.2 : ℝ)) ^ 2)).sum)
  sortByScoreDesc ((vsmScores rm q).map (fun p =>
    if 0 < docMagnitude rm p.1 then (p.1, p.2 / (query_magnitude * docMagnitude rm p.1))
    else p))

/-- BM25 inverse document frequency:
`math.log((total_docs - n + 0.5) / (n + 0.5) + 1)`. -/
noncomputable def bm25_idf (N df : ℝ) : ℝ :=
  Real.log ((N - df + 0.5) / (df + 0.5) + 1)

/-- BM25 contribution of one (term, document) pair:
`idf * numerator / denominator` with `numerator = tf * (k1 + 1)` and
`denominator = tf + k1 * (1 - b + b * (doc_length / avg_doc_length))`. -/
noncomputable def bm25_term_doc (idf tf dl avg k1 b : ℝ) : ℝ :=
  idf * (tf * (k1 + 1)) / (tf + k1 * (1 - b + b * (dl / avg)))

/-- Loop body of `okapi_bm25` for one query token. -/
noncomputable def bm25Step (rm : RankingModels) (k1 b : ℝ) (sc : List (String × ℝ))
    (term : String) : List (String × ℝ) :=
  match lookupA term rm.index with
  | none => sc
  | some docs =>
      let idf := bm25_idf (rm.total_docs : ℝ) (docs.length : ℝ)
      accumDocs (fun dp =>
        bm25_term_doc idf (dp.2.length : ℝ) (((lookupA dp.1 rm.doc_lengths).getD 0 : ℕ) : ℝ)
          rm.avg_doc_length k1 b) docs sc

/-- The `scores` dict built by `RankingModels.okapi_bm25` before sorting. -/
noncomputable def bm25Scores (rm : RankingModels) (q : List String) (k1 b : ℝ) :
    List (String × ℝ) :=
  q.foldl (bm25Step rm k1 b) []

/-- Model of `RankingModels.okapi_bm25(query_tokens, k1, b)`. -/
noncomputable def okapi_bm25 (rm : RankingModels) (q : List String) (k1 b : ℝ) :
    List (String × ℝ) :=
  sortByScoreDesc (bm25Scores rm q k1 b)

/-- Model of `RankingModels.rank_documents(query_tokens, method)`: dispatch on
the method tag, `ValueError` on anything else, and return
`list(scores.items())`. -/
noncomputable def rank_documents (rm : RankingModels) (q : List String) (method : String) :
    Except String (List (String × ℝ)) :=
  if method = "tfidf" then Except.ok (calculate_tf_idf rm q)
  else if method = "vsm" then Except.ok (vector_space_model rm q)
  else if method = "bm25" then Except.ok (okapi_bm25 rm q 1.5 0.75)
  else Except.error "Invlaid ranking method. Choose 'tfidf', 'vsm', or 'bm25'."

/-- Well-formedness of the data handed to `RankingModels`: it came
from Python dicts, so neither map level carries a duplicated key. -/
def RankingModels.WF (rm : RankingModels) : Prop :=
  (keysA rm.index).Nodup ∧ ∀ p ∈ rm.index, (keysA p.2).Nodup

instance (rm : RankingModels) : Decidable rm.WF :=
  inferInstanceAs (Decidable ((keysA rm.index).Nodup ∧ ∀ p ∈ rm.index, (keysA p.2).Nodup))

theorem mem_keysA_modifyA {α : Type} (k d : String) (dflt : α) (f : α → α)
    (l : List (String × α)) :
    d ∈ keysA (modifyA k dflt f l) ↔ d ∈ keysA l ∨ d = k := by
  rw [keysA_modifyA]
  by_cases hm : k ∈ keysA l
  · rw [if_pos hm]
    constructor
    · exact Or.inl
    · rintro (h | rfl) <;> [exact h; exact hm]
  · rw [if_neg hm, List.mem_append, List.mem_singleton]

theorem accumDocs_cons (f : String × List Nat → ℝ) (p : String × List Nat)
    (l : List (String × List Nat)) (sc : List (String × ℝ)) :
    accumDocs f (p :: l) sc = accumDocs f l (modifyA p.1 0 (fun v => v + f p) sc) := rfl

theorem lookupA_accumDocs (f : String × List Nat → ℝ) (docs : List (String × List Nat))
    (sc : List (String × ℝ)) (d : String) (hnd : (keysA docs).Nodup) :
    lookupA d (accumDocs f docs sc) =
      match lookupA d docs with
      | some ps => some ((lookupA d sc).getD 0 + f (d, ps))
      | none => lookupA d sc := by
  induction docs generalizing sc with
  | nil => rfl
  | cons p l ih =>
      rw [keysA_cons, List.nodup_cons] at hnd
      rw [accumDocs_cons, ih _ hnd.2, lookupA_cons]
      by_cases hd : p.1 = d
      · have hnone : lookupA d l = none := by
          cases h : lookupA d l with
          | none => rfl
          | some v =>
              exact absurd ((mem_keysA_iff_lookupA d l).2 (by rw [h]; rfl)) (hd ▸ hnd.1)
        rw [hnone, if_pos hd, lookupA_modifyA, if_pos hd]
        obtain ⟨a, b⟩ := p
        simp only at hd
        subst hd
        rfl
      · rw [if_neg hd, lookupA_modifyA, if_neg hd]

theorem nodup_keysA_accumDocs (f : String × List Nat → ℝ) (docs : List (String × List Nat))
    (sc : List (String × ℝ)) (h : (keysA sc).Nodup) :
    (keysA (accumDocs f docs sc)).Nodup := by
  induction docs generalizing sc with
  | nil => exact h
  | cons p l ih => exact ih _ (nodup_keysA_modifyA _ _ _ h)

theorem mem_keysA_accumDocs (f : String × List Nat → ℝ) (docs : List (String × List Nat))
    (sc : List (String × ℝ)) (d : String) :
    d ∈ keysA (accumDocs f docs sc) ↔ d ∈ keysA sc ∨ d ∈ keysA docs := by
  induction docs generalizing sc with
  | nil => simp [accumDocs]
  | cons p l ih =>
      rw [accumDocs_cons, ih, mem_keysA_modifyA, keysA_cons, List.mem_cons]
      tauto

theorem insertDesc_perm (x : String × ℝ) (l : List (String × ℝ)) :
    (insertDesc x l).Perm (x :: l) := by
  induction l with
  | nil => exact List.Perm.refl _
  | cons y ys ih =>
      rw [insertDesc]
      by_cases h : y.2 ≤ x.2
      · rw [if_pos h]
      · rw [if_neg h]
        exact (List.Perm.cons y ih).trans (List.Perm.swap x y ys)

theorem sortByScoreDesc_perm (l : List (String × ℝ)) :
    (sortByScoreDesc l).Perm l := by
  induction l with
  | nil => exact List.Perm.refl _
  | cons x xs ih =>
      exact (insertDesc_perm x (sortByScoreDesc xs)).trans (List.Perm.cons x ih)

theorem mem_keysA_sortByScoreDesc (l : List (String × ℝ)) (k : String) :
    k ∈ keysA (sortByScoreDesc l) ↔ k ∈ keysA l :=
  ((sortByScoreDesc_perm l).map Prod.fst).mem_iff

theorem lookupA_insertDesc (x : String × ℝ) (l : List (String × ℝ))
    (hx : x.1 ∉ keysA l) (k : String) :
    lookupA k (insertDesc x l) = lookupA k (x :: l) := by
  induction l with
  | nil => rfl
  | cons y ys ih =>
      rw [keysA_cons, List.mem_cons] at hx
      push_neg at hx
      rw [insertDesc]
      by_cases h : y.2 ≤ x.2
      · rw [if_pos h]
      · rw [if_neg h]
        rw [lookupA_cons, lookupA_cons, lookupA_cons]
        by_cases hy : y.1 = k
        · have hxk : ¬ x.1 = k := by rw [← hy]; exact hx.1
          rw [if_pos hy, if_neg hxk, if_pos hy]
        · rw [if_neg hy, ih hx.2, lookupA_cons, if_neg hy]

theorem lookupA_sortByScoreDesc (l : List (String × ℝ)) (h : (keysA l).Nodup) (k : String) :
    lookupA k (sortByScoreDesc l) = lookupA k l := by
  induction l with
  | nil => rfl
  | cons x xs ih =>
      rw [keysA_cons, List.nodup_cons] at h
      have hx : x.1 ∉ keysA (sortByScoreDesc xs) := by
        rw [mem_keysA_sortByScoreDesc]
        exact h.1
      show lookupA k (insertDesc x (sortByScoreDesc xs)) = _
      rw [lookupA_insertDesc x _ hx, lookupA_cons, lookupA_cons, ih h.2]

/-- Whether document `d` carries a posting for query token `t`
(`t in self.index` and `d` among `self.index[t]`). -/
def matchesB (rm : RankingModels) (d t : String) : Bool :=
  match lookupA t rm.index with
  | none => false
  | some docs => (lookupA d docs).isSome

/-- Generic accumulation over the query iteration: if one step either
leaves the scores dict unchanged or adds `c t` to document `d`'s
entry (materialising it at 0), then the whole fold adds the sum of the
matched contributions. -/
theorem lookupA_foldl_step {ι : Type} (step : List (String × ℝ) → ι → List (String × ℝ))
    (M : ι → Bool) (c : ι → ℝ) (d : String)
    (hstep : ∀ sc t, lookupA d (step sc t) =
      if M t then some ((lookupA d sc).getD 0 + c t) else lookupA d sc)
    (q : List ι) (sc : List (String × ℝ)) :
    lookupA d (q.foldl step sc) =
      if q.any M || (lookupA d sc).isSome
      then some ((lookupA d sc).getD 0 + (q.map (fun t => if M t then c t else 0)).sum)
      else none := by
  induction q generalizing sc with
  | nil =>
      rw [List.foldl_nil, List.any_nil, Bool.false_or]
      cases h : lookupA d sc with
      | none => simp
      | some v => simp
  | cons t ts ih =>
      rw [List.foldl_cons, ih (step sc t), List.any_cons, List.map_cons, List.sum_cons]
      by_cases hM : M t
      · rw [hstep, if_pos hM, hM]
        simp [add_assoc]
      · rw [hstep, if_neg hM]
        have hMf : M t = false := Bool.eq_false_iff.2 hM
        rw [hMf]
        simp

/-- Generic key-set characterization of the query iteration. -/
theorem mem_keysA_foldl_step {ι : Type} (step : List (String × ℝ) → ι → List (String × ℝ))
    (M : ι → Bool) (d : String)
    (hstep : ∀ sc t, d ∈ keysA (step sc t) ↔ d ∈ keysA sc ∨ M t)
    (q : List ι) (sc : List (String × ℝ)) :
    d ∈ keysA (q.foldl step sc) ↔ d ∈ keysA sc ∨ ∃ t ∈ q, M t := by
  induction q generalizing sc with
  | nil => simp
  | cons t ts ih =>
      rw [List.foldl_cons, ih (step sc t)]
      rw [hstep]
      constructor
      · rintro ((h | h) | ⟨u, hu, hM⟩)
        · exact Or.inl h
        · exact Or.inr ⟨t, List.mem_cons_self _ _, h⟩
        · exact Or.inr ⟨u, List.mem_cons_of_mem _ hu, hM⟩
      · rintro (h | ⟨u, hu, hM⟩)
        · exact Or.inl (Or.inl h)
        · rcases List.mem_cons.1 hu with rfl | hu
          · exact Or.inl (Or.inr hM)
          · exact Or.inr ⟨u, hu, hM⟩

/-- Contribution of one query token to document `d` in
`calculate_tf_idf`, read off the loop body. -/
noncomputable def tfidfContrib (rm : RankingModels) (t d : String) : ℝ :=
  match lookupA t rm.index with
  | none => 0
  | some docs =>
      match lookupA d docs with
      | none => 0
      | some ps => (ps.length : ℝ) * Real.log ((rm.total_docs : ℝ) / (docs.length : ℝ))

/-- Contribution of one query token to document `d` in `okapi_bm25`,
read off the loop body. -/
noncomputable def bm25Contrib (rm : RankingModels) (k1 b : ℝ) (t d : String) : ℝ :=
  match lookupA t rm.index with
  | none => 0
  | some docs =>
      match lookupA d docs with
      | none => 0
      | some ps =>
          bm25_term_doc (bm25_idf (rm.total_docs : ℝ) (docs.length : ℝ)) (ps.length : ℝ)
            (((lookupA d rm.doc_lengths).getD 0 : ℕ) : ℝ) rm.avg_doc_length k1 b

theorem tfidfStep_lookup (rm : RankingModels) (hWF : rm.WF) (d : String)
    (sc : List (String × ℝ)) (t : String) :
    lookupA d (tfidfStep rm sc t) =
      if matchesB rm d t then some ((lookupA d sc).getD 0 + tfidfContrib rm t d)
      else lookupA d sc := by
  rw [tfidfStep, matchesB, tfidfContrib]
  cases h : lookupA t rm.index with
  | none => rfl
  | some docs =>
      have hnd : (keysA docs).Nodup := hWF.2 (t, docs) (lookupA_mem h)
      simp only
      rw [lookupA_accumDocs _ _ _ _ hnd]
      cases hd : lookupA d docs with
      | none => rfl
      | some ps => rfl

theorem bm25Step_lookup (rm : RankingModels) (hWF : rm.WF) (k1 b : ℝ) (d : String)
    (sc : List (String × ℝ)) (t : String) :
    lookupA d (bm25Step rm k1 b sc t) =
      if matchesB rm d t then some ((lookupA d sc).getD 0 + bm25Contrib rm k1 b t d)
      else lookupA d sc := by
  rw [bm25Step, matchesB, bm25Contrib]
  cases h : lookupA t rm.index with
  | none => rfl
  | some docs =>
      have hnd : (keysA docs).Nodup := hWF.2 (t, docs) (lookupA_mem h)
      simp only
      rw [lookupA_accumDocs _ _ _ _ hnd]
      cases hd : lookupA d docs with
      | none => rfl
      | some ps => rfl

theorem tfidfStep_keys (rm : RankingModels) (d : String) (sc : List (String × ℝ))
    (t : String) :
    d ∈ keysA (tfidfStep rm sc t) ↔ d ∈ keysA sc ∨ matchesB rm d t := by
  rw [tfidfStep, matchesB]
  cases h : lookupA t rm.index with
  | none => simp
  | some docs =>
      simp only
      rw [mem_keysA_accumDocs, mem_keysA_iff_lookupA d docs]

theorem bm25Step_keys (rm : RankingModels) (k1 b : ℝ) (d : String)
    (sc : List (String × ℝ)) (t : String) :
    d ∈ keysA (bm25Step rm k1 b sc t) ↔ d ∈ keysA sc ∨ matchesB rm d t := by
  rw [bm25Step, matchesB]
  cases h : lookupA t rm.index with
  | none => simp
  | some docs =>
      simp only
      rw [mem_keysA_accumDocs, mem_keysA_iff_lookupA d docs]

theorem vsmStep_keys (rm : RankingModels) (d : String) (sc : List (String × ℝ))
    (p : String × Nat) :
    d ∈ keysA ((fun sc (p : String × Nat) =>
        match lookupA p.1 rm.index with
        | none => sc
        | some docs =>
            let idf := Real.log ((rm.total_docs : ℝ) / (docs.length : ℝ))
            let query_weight := (p.2 : ℝ) * idf
            accumDocs (fun dp => query_weight * ((dp.2.length : ℝ) * idf)) docs sc) sc p)
      ↔ d ∈ keysA sc ∨ matchesB rm d p.1 := by
  rw [matchesB]
  cases h : lookupA p.1 rm.index with
  | none => simp [h]
  | some docs =>
      simp only [h]
      rw [mem_keysA_accumDocs, mem_keysA_iff_lookupA d docs]

theorem nodup_keysA_foldl_scores {ι : Type} (step : List (String × ℝ) → ι → List (String × ℝ))
    (hstep : ∀ sc t, (keysA sc).Nodup → (keysA (step sc t)).Nodup)
    (q : List ι) (sc : List (String × ℝ)) (h : (keysA sc).Nodup) :
    (keysA (q.foldl step sc)).Nodup := by
  induction q generalizing sc with
  | nil => exact h
  | cons t ts ih => exact ih _ (hstep sc t h)

theorem nodup_keysA_tfidfScores (rm : RankingModels) (q : List String) :
    (keysA (tfidfScores rm q)).Nodup := by
  refine nodup_keysA_foldl_scores _ ?_ q [] List.nodup_nil
  intro sc t h
  rw [tfidfStep]
  cases hl : lookupA t rm.index with
  | none => exact h
  | some docs => exact nodup_keysA_accumDocs _ _ _ h

theorem nodup_keysA_bm25Scores (rm : RankingModels) (q : List String) (k1 b : ℝ) :
    (keysA (bm25Scores rm q k1 b)).Nodup := by
  refine nodup_keysA_foldl_scores _ ?_ q [] List.nodup_nil
  intro sc t h
  rw [bm25Step]
  cases hl : lookupA t rm.index with
  | none => exact h
  | some docs => exact nodup_keysA_accumDocs _ _ _ h

theorem bm25Contrib_of_not_matches (rm : RankingModels) (k1 b : ℝ) (t d : String)
    (h : matchesB rm d t = false) : bm25Contrib rm k1 b t d = 0 := by
  rw [matchesB] at h
  rw [bm25Contrib]
  cases hl : lookupA t rm.index with
  | none => rfl
  | some docs =>
      rw [hl] at h
      simp only at h
      cases hd : lookupA d docs with
      | none => simp only [hd]
      | some ps => rw [hd] at h; exact absurd h (by simp)

theorem tfidfContrib_of_not_matches (rm : RankingModels) (t d : String)
    (h : matchesB rm d t = false) : tfidfContrib rm t d = 0 := by
  rw [matchesB] at h
  rw [tfidfContrib]
  cases hl : lookupA t rm.index with
  | none => rfl
  | some docs =>
      rw [hl] at h
      simp only at h
      cases hd : lookupA d docs with
      | none => simp only [hd]
      | some ps => rw [hd] at h; exact absurd h (by simp)

theorem lookupA_bm25Scores (rm : RankingModels) (hWF : rm.WF) (q : List String)
    (k1 b : ℝ) (d : String) :
    lookupA d (bm25Scores rm q k1 b) =
      if q.any (matchesB rm d)
      then some ((q.map (fun t => bm25Contrib rm k1 b t d)).sum)
      else none := by
  rw [bm25Scores,
    lookupA_foldl_step (bm25Step rm k1 b) (matchesB rm d) (fun t => bm25Contrib rm k1 b t d) d
      (fun sc t => bm25Step_lookup rm hWF k1 b d sc t) q []]
  simp only [lookupA_nil, Option.isSome_none, Bool.or_false, Option.getD_none, zero_add]
  have hmap : q.map (fun t => if matchesB rm d t then bm25Contrib rm k1 b t d else 0)
      = q.map (fun t => bm25Contrib rm k1 b t d) := by
    refine List.map_congr_left ?_
    intro t _
    by_cases h : matchesB rm d t
    · rw [if_pos h]
    · rw [if_neg h, bm25Contrib_of_not_matches rm k1 b t d (Bool.eq_false_iff.2 h)]
  rw [hmap]

theorem lookupA_tfidfScores (rm : RankingModels) (hWF : rm.WF) (q : List String)
    (d : String) :
    lookupA d (tfidfScores rm q) =
      if q.any (matchesB rm d)
      then some ((q.map (fun t => tfidfContrib rm t d)).sum)
      else none := by
  rw [tfidfScores,
    lookupA_foldl_step (tfidfStep rm) (matchesB rm d) (fun t => tfidfContrib rm t d) d
      (fun sc t => tfidfStep_lookup rm hWF d sc t) q []]
  simp only [lookupA_nil, Option.isSome_none, Bool.or_false, Option.getD_none, zero_add]
  have hmap : q.map (fun t => if matchesB rm d t then tfidfContrib rm t d else 0)
      = q.map (fun t => tfidfContrib rm t d) := by
    refine List.map_congr_left ?_
    intro t _
    by_cases h : matchesB rm d t
    · rw [if_pos h]
    · rw [if_neg h, tfidfContrib_of_not_matches rm t d (Bool.eq_false_iff.2 h)]
  rw [hmap]

theorem lookupA_okapi_bm25 (rm : RankingModels) (hWF : rm.WF) (q : List String)
    (k1 b : ℝ) (d : String) :
    lookupA d (okapi_bm25 rm q k1 b) =
      if q.any (matchesB rm d)
      then some ((q.map (fun t => bm25Contrib rm k1 b t d)).sum)
      else none := by
  rw [okapi_bm25, lookupA_sortByScoreDesc _ (nodup_keysA_bm25Scores rm q k1 b)]
  exact lookupA_bm25Scores rm hWF q k1 b d

theorem lookupA_calculate_tf_idf (rm : RankingModels) (hWF : rm.WF) (q : List String)
    (d : String) :
    lookupA d (calculate_tf_idf rm q) =
      if q.any (matchesB rm d)
      then some ((q.map (fun t => tfidfContrib rm t d)).sum)
      else none := by
  rw [calculate_tf_idf, lookupA_sortByScoreDesc _ (nodup_keysA_tfidfScores rm q)]
  exact lookupA_tfidfScores rm hWF q d

/-- Spec-side BM25 score, written from the spec's words: per query
term present in the index, `idf = ln((N - df + 0.5)/(df + 0.5) + 1)`
with `N = total_docs`, `df = document_frequency(term)`; per matching
document, `length_norm = (1 - b) + b * (doc_length / avg_doc_length)`
and contribution `idf * (tf * (k1+1)) / (tf + k1 * length_norm)`;
accumulated additively across the query terms. -/
noncomputable def specBM25Score (rm : RankingModels) (k1 b : ℝ) (q : List String)
    (d : String) : ℝ :=
  (q.map (fun t =>
    match lookupA t rm.index with
    | none => 0
    | some docs =>
        match lookupA d docs with
        | none => 0
        | some ps =>
            Real.log (((rm.total_docs : ℝ) - (docs.length : ℝ) + 0.5)
                / ((docs.length : ℝ) + 0.5) + 1)
              * ((ps.length : ℝ) * (k1 + 1))
              / ((ps.length : ℝ)
                + k1 * ((1 - b) + b * ((((lookupA d rm.doc_lengths).getD 0 : ℕ) : ℝ)
                    / rm.avg_doc_length))))).sum

theorem bm25Contrib_eq_spec_term (rm : RankingModels) (k1 b : ℝ) (t d : String) :
    bm25Contrib rm k1 b t d =
      match lookupA t rm.index with
      | none => 0
      | some docs =>
          match lookupA d docs with
          | none => 0
          | some ps =>
              Real.log (((rm.total_docs : ℝ) - (docs.length : ℝ) + 0.5)
                  / ((docs.length : ℝ) + 0.5) + 1)
                * ((ps.length : ℝ) * (k1 + 1))
                / ((ps.length : ℝ)
                  + k1 * ((1 - b) + b * ((((lookupA d rm.doc_lengths).getD 0 : ℕ) : ℝ)
                      / rm.avg_doc_length))) := by
  rw [bm25Contrib]
  cases hl : lookupA t rm.index with
  | none => rfl
  | some docs =>
      cases hd : lookupA d docs with
      | none => rfl
      | some ps => rfl

/-- C1: for every well-formed index state, every query token list and
every matching document, the BM25 score bound to that document in the
dictionary returned by okapi_bm25 with the default parameters
k1 = 1.5, b = 0.75 equals the spec's sum of
idf * (tf * (k1+1)) / (tf + k1 * length_norm) over the query terms. -/
theorem okapi_bm25_score_spec (rm : RankingModels) (hWF : rm.WF) (q : List String)
    (d : String) (hmatch : ∃ t ∈ q, matchesB rm d t = true) :
    lookupA d (okapi_bm25 rm q 1.5 0.75) = some (specBM25Score rm 1.5 0.75 q d) := by
  rw [lookupA_okapi_bm25 rm hWF q 1.5 0.75 d,
    if_pos (List.any_eq_true.2 (by simpa using hmatch))]
  simp only [specBM25Score]
  exact congrArg some (congrArg List.sum
    (List.map_congr_left (l := q) (fun t _ => bm25Contrib_eq_spec_term rm 1.5 0.75 t d)))

/-- Ranking state over the two-document corpus
A = ["cat"], B = ["dog"], built through the indexing pipeline. -/
def rmCatDog : RankingModels :=
  rmOf (buildIndex [("A", ["cat"], "ma"), ("B", ["dog"], "mb")])

/-- Ranking state over the spec's concrete scenario corpus
A = ["cat","dog","cat"], B = ["dog","dog","dog"], built through the
indexing pipeline. -/
def rmCorpus : RankingModels :=
  rmOf (buildIndex [("A", ["cat", "dog", "cat"], "ma"), ("B", ["dog", "dog", "dog"], "mb")])

/-- Witness for the C1 theorem at a concrete two-document index. -/
theorem okapi_bm25_score_spec_witness :
    lookupA "A" (okapi_bm25 rmCatDog ["cat"] 1.5 0.75)
      = some (specBM25Score rmCatDog 1.5 0.75 ["cat"] "A") :=
  okapi_bm25_score_spec rmCatDog (by decide) ["cat"] "A" (by decide)

/-- Spec-side TF-IDF score as claim C3 states it: the sum over the
DISTINCT terms of the query of
(raw term frequency in doc) * ln(total_docs / document_frequency). -/
noncomputable def specTFIDFScoreDistinct (rm : RankingModels) (q : List String)
    (d : String) : ℝ :=
  ((q.dedup).map (fun t =>
    match lookupA t rm.index with
    | none => 0
    | some docs =>
        match lookupA d docs with
        | none => 0
        | some ps => (ps.length : ℝ) * Real.log ((rm.total_docs : ℝ) / (docs.length : ℝ)))).sum

/-- Spec-side TF-IDF score as amended: the sum over the query token
list with multiplicity (one weighted addition per occurrence). -/
noncomputable def specTFIDFScore (rm : RankingModels) (q : List String) (d : String) : ℝ :=
  (q.map (fun t =>
    match lookupA t rm.index with
    | none => 0
    | some docs =>
        match lookupA d docs with
        | none => 0
        | some ps => (ps.length : ℝ) * Real.log ((rm.total_docs : ℝ) / (docs.length : ℝ)))).sum

theorem tfidfContrib_eq_spec_term (rm : RankingModels) (t d : String) :
    tfidfContrib rm t d =
      match lookupA t rm.index with
      | none => 0
      | some docs =>
          match lookupA d docs with
          | none => 0
          | some ps => (ps.length : ℝ) * Real.log ((rm.total_docs : ℝ) / (docs.length : ℝ)) := by
  rw [tfidfContrib]

/-- Value of the TF-IDF loop contribution of "cat" to document "A" on
the concrete two-document index. -/
theorem tfidfContrib_rmCatDog :
    tfidfContrib rmCatDog "cat" "A" = (1 : ℝ) * Real.log ((2 : ℝ) / 1) := by
  have e1 : lookupA "cat" rmCatDog.index = some [("A", [0])] := by decide
  have e2 : lookupA "A" ([("A", [0])] : List (String × List Nat)) = some [0] := by decide
  have e3 : rmCatDog.total_docs = 2 := by decide
  simp only [tfidfContrib]
  rw [e1]
  simp only
  rw [e2, e3]
  norm_num

/-- C3 counterexample: on the two-document index with A = ["cat"],
B = ["dog"], the query ["cat", "cat"] scores document A at
2 * ln 2 — one weighted addition per token occurrence — and not at the
single weighted addition per distinct term the claim states. -/
theorem tfidf_duplicate_query_counts_twice :
    lookupA "A" (calculate_tf_idf rmCatDog ["cat", "cat"])
      ≠ some (specTFIDFScoreDistinct rmCatDog ["cat", "cat"] "A") := by
  have hWF : rmCatDog.WF := by decide
  rw [lookupA_calculate_tf_idf rmCatDog hWF ["cat", "cat"] "A", if_pos (by decide)]
  have hdedup : (["cat", "cat"] : List String).dedup = ["cat"] := by decide
  have hspec : specTFIDFScoreDistinct rmCatDog ["cat", "cat"] "A"
      = (1 : ℝ) * Real.log ((2 : ℝ) / 1) := by
    rw [specTFIDFScoreDistinct, hdedup]
    rw [List.map_cons, List.map_nil, List.sum_cons, List.sum_nil, add_zero]
    rw [← tfidfContrib_eq_spec_term rmCatDog "cat" "A", tfidfContrib_rmCatDog]
  rw [hspec]
  rw [List.map_cons, List.map_cons, List.map_nil, List.sum_cons, List.sum_cons, List.sum_nil,
    tfidfContrib_rmCatDog]
  intro hcontra
  have heq := Option.some.inj hcontra
  have hpos : 0 < Real.log ((2 : ℝ) / 1) := by
    rw [show ((2 : ℝ) / 1) = 2 by norm_num]
    exact Real.log_pos (by norm_num)
  nlinarith [heq, hpos]

/-- C3 (amended): for every well-formed index state, every query token
list and every matching document, the TF-IDF score bound to that
document by calculate_tf_idf equals the sum over the query token list
(with multiplicity) of (raw tf in doc) * ln(total_docs / df): each
occurrence of a term in the query contributes one weighted addition. -/
theorem calculate_tf_idf_score_spec (rm : RankingModels) (hWF : rm.WF) (q : List String)
    (d : String) (hmatch : ∃ t ∈ q, matchesB rm d t = true) :
    lookupA d (calculate_tf_idf rm q) = some (specTFIDFScore rm q d) := by
  rw [lookupA_calculate_tf_idf rm hWF q d,
    if_pos (List.any_eq_true.2 (by simpa using hmatch))]
  simp only [specTFIDFScore]
  exact congrArg some (congrArg List.sum
    (List.map_congr_left (l := q) (fun t _ => tfidfContrib_eq_spec_term rm t d)))

/-- Witness for the amended C3 theorem at a concrete input. -/
theorem calculate_tf_idf_score_spec_witness :
    lookupA "A" (calculate_tf_idf rmCatDog ["cat", "cat"])
      = some (specTFIDFScore rmCatDog ["cat", "cat"] "A") :=
  calculate_tf_idf_score_spec rmCatDog (by decide) ["cat", "cat"] "A" (by decide)

/-- The BM25 idf of a term that is present in the index (1 ≤ df ≤ N)
is strictly positive. -/
theorem bm25_idf_pos (N df : ℝ) (hdf : 1 ≤ df) (hN : df ≤ N) : 0 < bm25_idf N df := by
  rw [bm25_idf]
  apply Real.log_pos
  have h1 : 0 < df + 0.5 := by linarith
  have h2 : 0 < N - df + 0.5 := by linarith
  have h3 := div_pos h2 h1
  linarith

/-- C7: with the default parameters k1 = 1.5, b = 0.75 and a term
present in the index (1 ≤ df ≤ N), the BM25 per-document score
`bm25_term_doc` used by okapi_bm25 is strictly increasing in the term
frequency at fixed document length, and strictly decreasing in the
document length at fixed term frequency, holding avg_doc_length
fixed. -/
theorem bm25_monotone (N df : ℝ) (hdf : 1 ≤ df) (hN : df ≤ N) (avg : ℝ) (havg : 0 < avg) :
    (∀ tf₁ tf₂ dl : ℝ, 0 ≤ tf₁ → tf₁ < tf₂ → 0 ≤ dl →
      bm25_term_doc (bm25_idf N df) tf₁ dl avg 1.5 0.75
        < bm25_term_doc (bm25_idf N df) tf₂ dl avg 1.5 0.75) ∧
    (∀ tf dl₁ dl₂ : ℝ, 0 < tf → 0 ≤ dl₁ → dl₁ < dl₂ →
      bm25_term_doc (bm25_idf N df) tf dl₂ avg 1.5 0.75
        < bm25_term_doc (bm25_idf N df) tf dl₁ avg 1.5 0.75) := by
  have hidf : 0 < bm25_idf N df := bm25_idf_pos N df hdf hN
  constructor
  · intro tf₁ tf₂ dl h1 h12 hdl
    rw [bm25_term_doc, bm25_term_doc]
    have hdiv : 0 ≤ dl / avg := div_nonneg hdl (le_of_lt havg)
    have hL : 0 < 1 - 0.75 + 0.75 * (dl / avg) := by nlinarith
    have hD1 : 0 < tf₁ + 1.5 * (1 - 0.75 + 0.75 * (dl / avg)) := by nlinarith
    have hD2 : 0 < tf₂ + 1.5 * (1 - 0.75 + 0.75 * (dl / avg)) := by nlinarith
    rw [div_lt_div_iff₀ hD1 hD2]
    nlinarith [mul_pos (mul_pos hidf hL) (sub_pos.2 h12)]
  · intro tf dl₁ dl₂ htf hdl1 h12
    rw [bm25_term_doc, bm25_term_doc]
    have hq : dl₁ / avg < dl₂ / avg := by
      rw [div_lt_div_iff₀ havg havg]
      nlinarith
    have hdiv1 : 0 ≤ dl₁ / avg := div_nonneg hdl1 (le_of_lt havg)
    have hD1 : 0 < tf + 1.5 * (1 - 0.75 + 0.75 * (dl₁ / avg)) := by nlinarith
    have hD2 : 0 < tf + 1.5 * (1 - 0.75 + 0.75 * (dl₂ / avg)) := by nlinarith
    rw [div_lt_div_iff₀ hD2 hD1]
    have hP : 0 < bm25_idf N df * (tf * (1.5 + 1)) := by nlinarith
    have hD12 : tf + 1.5 * (1 - 0.75 + 0.75 * (dl₁ / avg))
        < tf + 1.5 * (1 - 0.75 + 0.75 * (dl₂ / avg)) := by nlinarith
    exact mul_lt_mul_of_pos_left hD12 hP

/-- Witness for the C7 theorem at concrete numbers (N = 2, df = 1,
avg_doc_length = 3). -/
theorem bm25_monotone_witness :
    bm25_term_doc (bm25_idf 2 1) 1 3 3 1.5 0.75 < bm25_term_doc (bm25_idf 2 1) 2 3 3 1.5 0.75 ∧
    bm25_term_doc (bm25_idf 2 1) 1 6 3 1.5 0.75 < bm25_term_doc (bm25_idf 2 1) 1 3 3 1.5 0.75 := by
  have h := bm25_monotone 2 1 (by norm_num) (by norm_num) 3 (by norm_num)
  exact ⟨h.1 1 2 3 (by norm_num) (by norm_num) (by norm_num),
         h.2 1 3 6 (by norm_num) (by norm_num) (by norm_num)⟩

/-- C8: rank_documents called with a method tag outside
{tfidf, vsm, bm25} fails with the ValueError message naming the
allowed set, and does so independently of the query and the index
state (no scoring work happens); each valid tag dispatches to the
corresponding scoring method. -/
theorem rank_documents_dispatch (rm : RankingModels) (q : List String) (m : String)
    (hm : m ∉ (["tfidf", "vsm", "bm25"] : List String)) :
    (rank_documents rm q m
        = Except.error "Invlaid ranking method. Choose 'tfidf', 'vsm', or 'bm25'." ∧
      ∀ (rm₂ : RankingModels) (q₂ : List String),
        rank_documents rm q m = rank_documents rm₂ q₂ m) ∧
    rank_documents rm q "tfidf" = Except.ok (calculate_tf_idf rm q) ∧
    rank_documents rm q "vsm" = Except.ok (vector_space_model rm q) ∧
    rank_documents rm q "bm25" = Except.ok (okapi_bm25 rm q 1.5 0.75) := by
  simp only [List.mem_cons, List.not_mem_nil, or_false, not_or] at hm
  obtain ⟨h1, h2, h3⟩ := hm
  refine ⟨⟨?_, ?_⟩, ?_, ?_, ?_⟩
  · rw [rank_documents, if_neg h1, if_neg h2, if_neg h3]
  · intro rm₂ q₂
    rw [rank_documents, if_neg h1, if_neg h2, if_neg h3,
      rank_documents, if_neg h1, if_neg h2, if_neg h3]
  · rw [rank_documents, if_pos rfl]
  · rw [rank_documents, if_neg (by decide), if_pos rfl]
  · rw [rank_documents, if_neg (by decide), if_neg (by decide), if_pos rfl]

/-- Witness for the C8 theorem at the unknown tag "foo". -/
theorem rank_documents_dispatch_witness :
    rank_documents rmCatDog [] "foo"
        = Except.error "Invlaid ranking method. Choose 'tfidf', 'vsm', or 'bm25'." ∧
    rank_documents rmCatDog [] "foo" = rank_documents rmCorpus ["dog"] "foo" ∧
    rank_documents rmCatDog [] "tfidf" = Except.ok (calculate_tf_idf rmCatDog []) := by
  have h := rank_documents_dispatch rmCatDog [] "foo" (by decide)
  exact ⟨h.1.1, h.1.2 rmCorpus ["dog"], h.2.1⟩

theorem mem_keysA_counter_foldl (q : List String) (t : String)
    (acc : List (String × Nat)) :
    t ∈ keysA (q.foldl (fun c x => modifyA x 0 (fun n => n + 1) c) acc)
      ↔ t ∈ keysA acc ∨ t ∈ q := by
  induction q generalizing acc with
  | nil => simp
  | cons x xs ih =>
      rw [List.foldl_cons, ih, mem_keysA_modifyA, List.mem_cons]
      tauto

theorem mem_keysA_counter (q : List String) (t : String) :
    t ∈ keysA (counter q) ↔ t ∈ q := by
  rw [counter, mem_keysA_counter_foldl]
  simp

theorem mem_keysA_vsmScores (rm : RankingModels) (q : List String) (d : String) :
    d ∈ keysA (vsmScores rm q) ↔ ∃ t ∈ q, matchesB rm d t = true := by
  rw [vsmScores,
    mem_keysA_foldl_step _ (fun p : String × Nat => matchesB rm d p.1) d
      (fun sc p => vsmStep_keys rm d sc p) (counter q) []]
  simp only [keysA_nil, List.not_mem_nil, false_or]
  constructor
  · rintro ⟨p, hp, hM⟩
    exact ⟨p.1, (mem_keysA_counter q p.1).1 (List.mem_map_of_mem Prod.fst hp), hM⟩
  · rintro ⟨t, ht, hM⟩
    obtain ⟨p, hp, hpt⟩ := List.mem_map.1 ((mem_keysA_counter q t).2 ht)
    exact ⟨p, hp, by rw [show p.1 = t from hpt]; exact hM⟩

theorem keysA_map_normalize (rm : RankingModels) (qmag : ℝ) (l : List (String × ℝ)) :
    keysA (l.map (fun p =>
      if 0 < docMagnitude rm p.1 then (p.1, p.2 / (qmag * docMagnitude rm p.1)) else p))
      = keysA l := by
  induction l with
  | nil => rfl
  | cons p l ih =>
      rw [List.map_cons, keysA_cons, keysA_cons, ih]
      by_cases h : 0 < docMagnitude rm p.1
      · rw [if_pos h]
      · rw [if_neg h]

theorem mem_keysA_calculate_tf_idf (rm : RankingModels) (q : List String) (d : String) :
    d ∈ keysA (calculate_tf_idf rm q) ↔ ∃ t ∈ q, matchesB rm d t = true := by
  rw [calculate_tf_idf, mem_keysA_sortByScoreDesc, tfidfScores,
    mem_keysA_foldl_step (tfidfStep rm) (matchesB rm d) d (tfidfStep_keys rm d) q []]
  simp

theorem mem_keysA_okapi_bm25 (rm : RankingModels) (q : List String) (k1 b : ℝ)
    (d : String) :
    d ∈ keysA (okapi_bm25 rm q k1 b) ↔ ∃ t ∈ q, matchesB rm d t = true := by
  rw [okapi_bm25, mem_keysA_sortByScoreDesc, bm25Scores,
    mem_keysA_foldl_step (bm25Step rm k1 b) (matchesB rm d) d (bm25Step_keys rm k1 b d) q []]
  simp

theorem mem_keysA_vector_space_model (rm : RankingModels) (q : List String) (d : String) :
    d ∈ keysA (vector_space_model rm q) ↔ ∃ t ∈ q, matchesB rm d t = true := by
  rw [vector_space_model]
  rw [mem_keysA_sortByScoreDesc, keysA_map_normalize]
  exact mem_keysA_vsmScores rm q d

theorem foldl_scores_eq_nil {ι : Type} (step : List (String × ℝ) → ι → List (String × ℝ))
    (P : ι → Prop) (hstep : ∀ t, P t → step [] t = []) (q : List ι)
    (hq : ∀ t ∈ q, P t) : q.foldl step [] = [] := by
  induction q with
  | nil => rfl
  | cons t ts ih =>
      rw [List.foldl_cons, hstep t (hq t (List.mem_cons_self _ _))]
      exact ih (fun u hu => hq u (List.mem_cons_of_mem _ hu))

theorem tfidfScores_eq_nil (rm : RankingModels) (q : List String)
    (h : ∀ t ∈ q, lookupA t rm.index = none) : tfidfScores rm q = [] := by
  rw [tfidfScores]
  refine foldl_scores_eq_nil _ (fun t => lookupA t rm.index = none) ?_ q h
  intro t ht
  rw [tfidfStep, ht]

theorem bm25Scores_eq_nil (rm : RankingModels) (q : List String) (k1 b : ℝ)
    (h : ∀ t ∈ q, lookupA t rm.index = none) : bm25Scores rm q k1 b = [] := by
  rw [bm25Scores]
  refine foldl_scores_eq_nil _ (fun t => lookupA t rm.index = none) ?_ q h
  intro t ht
  rw [bm25Step, ht]

theorem vsmScores_eq_nil (rm : RankingModels) (q : List String)
    (h : ∀ t ∈ q, lookupA t rm.index = none) : vsmScores rm q = [] := by
  rw [vsmScores]
  refine foldl_scores_eq_nil _ (fun p : String × Nat => lookupA p.1 rm.index = none) ?_
    (counter q) ?_
  · intro p hp
    rw [hp]
  · intro p hp
    exact h p.1 ((mem_keysA_counter q p.1).1 (List.mem_map_of_mem Prod.fst hp))

/-- C10: under each of the three scoring methods a document key
appears in the returned score mapping iff the document carries a
posting for at least one query term present in the index; a query
whose terms are all absent from the index yields an empty score
mapping under all three methods. -/
theorem score_keys_iff (rm : RankingModels) (q : List String) (d : String) :
    (d ∈ keysA (calculate_tf_idf rm q) ↔ ∃ t ∈ q, matchesB rm d t = true) ∧
    (d ∈ keysA (vector_space_model rm q) ↔ ∃ t ∈ q, matchesB rm d t = true) ∧
    (∀ k1 b : ℝ, d ∈ keysA (okapi_bm25 rm q k1 b) ↔ ∃ t ∈ q, matchesB rm d t = true) ∧
    ((∀ t ∈ q, lookupA t rm.index = none) →
      calculate_tf_idf rm q = [] ∧ vector_space_model rm q = [] ∧
        ∀ k1 b : ℝ, okapi_bm25 rm q k1 b = []) := by
  refine ⟨mem_keysA_calculate_tf_idf rm q d, mem_keysA_vector_space_model rm q d,
    fun k1 b => mem_keysA_okapi_bm25 rm q k1 b d, fun h => ⟨?_, ?_, ?_⟩⟩
  · rw [calculate_tf_idf, tfidfScores_eq_nil rm q h]
    rfl
  · rw [vector_space_model]
    rw [vsmScores_eq_nil rm q h]
    rfl
  · intro k1 b
    rw [okapi_bm25, bm25Scores_eq_nil rm q k1 b h]
    rfl

/-- Witness for the C10 theorem: the query ["zzz"], whose term is
absent from the concrete index, yields empty score mappings under all
three methods. -/
theorem score_keys_iff_witness :
    calculate_tf_idf rmCatDog ["zzz"] = [] ∧ vector_space_model rmCatDog ["zzz"] = [] ∧
      okapi_bm25 rmCatDog ["zzz"] 1.5 0.75 = [] := by
  have h1 := (score_keys_iff rmCatDog ["zzz"] "A").2.2.2 (by decide)
  exact ⟨h1.1, h1.2.1, h1.2.2 1.5 0.75⟩

/-- C9: rank_documents is deterministic — in this pure embedding two
calls with the same arguments are definitionally the same value — and
on the spec's concrete scenario (A = ["cat","dog","cat"],
B = ["dog","dog","dog"], query ["dog"], TF-IDF) both scores are 0 and
the returned order is exactly [A, B], the stable insertion order of
the tied documents. -/
theorem rank_documents_deterministic :
    (∀ (rm : RankingModels) (q : List String) (m : String),
        rank_documents rm q m = rank_documents rm q m) ∧
    rank_documents rmCorpus ["dog"] "tfidf"
      = Except.ok [("A", 0), ("B", 0)] := by
  refine ⟨fun rm q m => rfl, ?_⟩
  rw [rank_documents, if_pos rfl]
  have hidx : lookupA "dog" rmCorpus.index = some [("A", [1]), ("B", [0, 1, 2])] := by
    decide
  have htd : rmCorpus.total_docs = 2 := by decide
  have hcalc : calculate_tf_idf rmCorpus ["dog"] = [("A", 0), ("B", 0)] := by
    norm_num [calculate_tf_idf, tfidfScores, tfidfStep, hidx, htd, accumDocs, modifyA,
      sortByScoreDesc, Real.log_one]
    rw [if_neg (by decide : ¬("A" : String) = "B")]
    norm_num [insertDesc]
  rw [hcalc]

end IRSpec
